import Mathlib

/-!
Verification of the `kwp` keyword parser (`src/lib.rs`).

Strings are modelled as `List Char`; each Rust string primitive used by the
library (`split(",")`, `starts_with`, `contains`, `replace(pat, "")`,
`to_lowercase`) is embedded as an executable function below, and the two
public operations `Parser::parse` and `Parser::match_products` are translated
directly from the source.
-/

namespace Kwp

/-- Strings are lists of characters. -/
abbrev Str := List Char

/-- Convert a Lean string literal to the model type. -/
def str (s : String) : Str := s.toList

/-- Model of Rust `str::starts_with(pat)`: `isPref pat s` is true when `pat`
is a literal prefix of `s`.  An empty pattern is a prefix of everything. -/
def isPref : Str → Str → Bool
  | [], _ => true
  | _ :: _, [] => false
  | p :: ps, c :: cs => p == c && isPref ps cs

/-- Model of Rust `str::contains(pat)`: literal substring test.
The empty pattern is contained in every string. -/
def containsSub (s pat : Str) : Bool :=
  match s with
  | [] => isPref pat []
  | _ :: cs => isPref pat s || containsSub cs pat

/-- Scan for `stripAll` below, structurally recursive on a fuel counter so
that it reduces inside the kernel: every step consumes at least one
character of the string, so with `fuel ≥ s.length` the `0, s` branch is
never reached on a non-empty string. -/
def stripGo (pat : Str) : Nat → Str → Str
  | _, [] => []
  | 0, s => s
  | fuel + 1, c :: cs =>
    if pat.length != 0 && isPref pat (c :: cs) then
      stripGo pat fuel (cs.drop (pat.length - 1))
    else
      c :: stripGo pat fuel cs

/-- Model of Rust `str::replace(pat, "")`: remove the leftmost
non-overlapping occurrences of `pat`, scanning left to right.  Rust's
`replace` with an empty pattern inserts the (empty) replacement at every
boundary and so returns the string unchanged; the `pat.length != 0` guard
reproduces that. -/
def stripAll (pat s : Str) : Str := stripGo pat s.length s

/-- Model of Rust `input.split(",")`: split on every comma; the result is
never empty (the empty string splits into `[""]`). -/
def splitComma : Str → List Str
  | [] => [[]]
  | c :: rest =>
    if c = ',' then [] :: splitComma rest
    else
      match splitComma rest with
      | [] => [[c]]
      | t :: ts => (c :: t) :: ts

/-- Model of Rust `str::to_lowercase` on the ASCII fragment exercised by the
library: lower-case each character (`Char.toLower` lowers `'A'..'Z'`). -/
def lower (s : Str) : Str := s.map Char.toLower

/-- `Prefixes` from the source: the positive and negative keyword markers. -/
structure Prefixes where
  positive : Str
  negative : Str
deriving DecidableEq

/-- `Prefixes::default()`: `"+"` and `"-"`. -/
def Prefixes.default : Prefixes := ⟨['+'], ['-']⟩

/-- `Keywords` from the source: the three classification buckets. -/
structure Keywords where
  positive : List Str
  negative : List Str
  other : List Str
deriving DecidableEq

/-- `Parser` from the source: owned input, prefix pair, and the
`retain_prefix` flag (spelled `retainPfx` here). -/
structure Parser where
  input : Str
  prefixes : Prefixes
  retainPfx : Bool
deriving DecidableEq

/-- `Parser::new`: stores the input and prefixes; `retain_prefix` starts
out `false`. -/
def Parser.new (input : Str) (pfxs : Prefixes) : Parser :=
  ⟨input, pfxs, false⟩

/-- `Parser::should_retain_prefix(b)`: sets the flag (modelled as a
functional update; the Rust method also returns `b`). -/
def Parser.shouldRetainPfx (p : Parser) (b : Bool) : Parser :=
  { p with retainPfx := b }

/-- The keyword emitted for a matching token: the token itself when the
prefix is retained, otherwise the token with every occurrence of the prefix
removed (`e.replace(&prefix, "")`). -/
def emitKw (p : Parser) (pfx t : Str) : Str :=
  if !p.retainPfx then stripAll pfx t else t

/-- `Parser::parse_with_prefix(split, prefix)`: keep the tokens starting
with the prefix and map each to its emitted keyword. -/
def parseWithPfx (p : Parser) (split : List Str) (pfx : Str) : List Str :=
  (split.filter fun e => isPref pfx e).map fun e => emitKw p pfx e

/-- `Parser::parse`: split the input on `','`, build the positive and
negative buckets, and keep in `other` the tokens that contain no emitted
positive or negative keyword as a substring. -/
def Parser.parse (p : Parser) : Keywords :=
  let split := splitComma p.input
  let positive := parseWithPfx p split p.prefixes.positive
  let negative := parseWithPfx p split p.prefixes.negative
  let other :=
    split.filter fun x =>
      !(positive.any fun y => containsSub x y)
        && !(negative.any fun y => containsSub x y)
  ⟨positive, negative, other⟩

/-- The loop-body condition of `Parser::match_products` for one candidate:
some positive keyword (lower-cased) occurs in the lower-cased candidate and
no negative keyword (lower-cased) does.  The positive test lower-cases the
already lower-cased candidate once more, exactly as the source does. -/
def matchKeep (kws : Keywords) (product : Str) : Bool :=
  let pLower := lower product
  (kws.positive.any fun e => containsSub (lower pLower) (lower e))
    && !(kws.negative.any fun e => containsSub pLower (lower e))

/-- `Parser::match_products`: fold over the candidates, appending each one
that passes `matchKeep` to the accumulator. -/
def Parser.matchProducts (_p : Parser) (products : List Str)
    (kws : Keywords) : List Str :=
  products.foldl
    (fun found product =>
      if matchKeep kws product then found ++ [product] else found)
    []

/-- The `other`-bucket filter of `Parser::parse`, as a predicate on a raw
token: no emitted positive or negative keyword is a substring of it. -/
def inOther (p : Parser) (t : Str) : Bool :=
  !((p.parse).positive.any fun y => containsSub t y)
    && !((p.parse).negative.any fun y => containsSub t y)

/-- In how many of the three buckets a raw token of the split is counted:
it is counted in `positive` (resp. `negative`) when it starts with that
prefix, and in `other` when it passes the `other`-bucket filter. -/
def numBuckets (p : Parser) (t : Str) : Nat :=
  (if isPref p.prefixes.positive t then 1 else 0)
    + (if isPref p.prefixes.negative t then 1 else 0)
    + (if inOther p t then 1 else 0)

/-! ### Helper lemmas -/

/-- The positive bucket of `parse` is the emitted image of the tokens that
start with the positive prefix, in split order. -/
theorem parse_positive_eq (p : Parser) :
    (p.parse).positive
      = ((splitComma p.input).filter fun t =>
          isPref p.prefixes.positive t).map (emitKw p p.prefixes.positive) :=
  rfl

/-- The negative bucket of `parse` is the emitted image of the tokens that
start with the negative prefix, in split order. -/
theorem parse_negative_eq (p : Parser) :
    (p.parse).negative
      = ((splitComma p.input).filter fun t =>
          isPref p.prefixes.negative t).map (emitKw p p.prefixes.negative) :=
  rfl

/-- The `other` bucket of `parse` is the split filtered by `inOther`. -/
theorem parse_other_eq (p : Parser) :
    (p.parse).other = (splitComma p.input).filter fun t => inOther p t :=
  rfl

/-- The empty pattern is a substring of every string. -/
theorem containsSub_nil (s : Str) : containsSub s [] = true := by
  cases s <;> simp [containsSub, isPref]

/-- If `a` is a prefix of `b`, then `a` is a substring of `b`. -/
theorem containsSub_of_isPref (a b : Str) (h : isPref a b = true) :
    containsSub b a = true := by
  cases b with
  | nil => simpa [containsSub] using h
  | cons c cs => simp [containsSub, h]

/-- Two prefixes of the same string are nested: the shorter one is a prefix
of the longer. -/
theorem isPref_of_isPref_of_le (a b t : Str) (ha : isPref a t = true)
    (hb : isPref b t = true) (hlen : a.length ≤ b.length) :
    isPref a b = true := by
  induction a generalizing b t with
  | nil => simp [isPref]
  | cons x xs ih =>
    cases t with
    | nil => simp [isPref] at ha
    | cons c cs =>
      cases b with
      | nil => simp at hlen
      | cons y ys =>
        simp only [isPref, Bool.and_eq_true, beq_iff_eq] at ha hb ⊢
        refine ⟨ha.1.trans hb.1.symm, ?_⟩
        exact ih ys cs ha.2 hb.2 (by simpa using hlen)

/-- The emitted keyword of a matching token is in the positive bucket. -/
theorem emit_mem_positive (p : Parser) (t : Str)
    (ht : t ∈ splitComma p.input)
    (hm : isPref p.prefixes.positive t = true) :
    emitKw p p.prefixes.positive t ∈ (p.parse).positive := by
  rw [parse_positive_eq]
  exact List.mem_map_of_mem _ (List.mem_filter.mpr ⟨ht, hm⟩)

/-- The emitted keyword of a matching token is in the negative bucket. -/
theorem emit_mem_negative (p : Parser) (t : Str)
    (ht : t ∈ splitComma p.input)
    (hm : isPref p.prefixes.negative t = true) :
    emitKw p p.prefixes.negative t ∈ (p.parse).negative := by
  rw [parse_negative_eq]
  exact List.mem_map_of_mem _ (List.mem_filter.mpr ⟨ht, hm⟩)

/-- Lists with equal lower-casings agree on any `any`-test that only
inspects the lower-cased elements. -/
theorem any_map_lower (l m : List Str) (f : Str → Bool)
    (h : l.map lower = m.map lower) :
    (l.any fun e => f (lower e)) = m.any fun e => f (lower e) := by
  have h2 := congrArg (fun t => List.any t f) h
  simpa [List.any_map, Function.comp] using h2

/-- `match_products` is the filter of the candidate list by `matchKeep`:
folding the push-if-kept loop body from any accumulator. -/
theorem foldl_matchKeep (kws : Keywords) (l acc : List Str) :
    List.foldl
      (fun found product =>
        if matchKeep kws product then found ++ [product] else found)
      acc l = acc ++ l.filter (matchKeep kws) := by
  induction l generalizing acc with
  | nil => simp
  | cons x xs ih =>
    by_cases h : matchKeep kws x = true
    · simp [List.filter_cons, h, ih]
    · simp only [Bool.not_eq_true] at h
      simp [List.filter_cons, h, ih]

/-- `match_products` keeps exactly the candidates passing `matchKeep`, in
candidate order. -/
theorem matchProducts_eq_filter (p : Parser) (products : List Str)
    (kws : Keywords) :
    p.matchProducts products kws = products.filter (matchKeep kws) := by
  unfold Parser.matchProducts
  simpa using foldl_matchKeep kws products []

/-! ### Claims -/

/-- C2 counterexample: the claim says classifying the empty input yields an
empty `other` bucket, but splitting `""` on `','` gives the single token
`""`, which matches neither prefix and lands in `other`, so `other = [""]`
is not empty. -/
theorem claim_C2_counterexample :
    (Parser.new (str "") Prefixes.default).parse.other ≠ [] := by decide

/-- C2 (amended): for every parser whose tokens match neither prefix
(in particular the empty input, whose single token `""` matches neither
default prefix), `parse` returns empty positive and negative buckets, and
the `other` bucket holds every raw token of the split. -/
theorem claim_C2_amended (p : Parser)
    (h : ∀ t ∈ splitComma p.input,
        isPref p.prefixes.positive t = false
          ∧ isPref p.prefixes.negative t = false) :
    (p.parse).positive = [] ∧ (p.parse).negative = []
      ∧ (p.parse).other = splitComma p.input := by
  have hpos : (p.parse).positive = [] := by
    rw [parse_positive_eq]
    have hf : ((splitComma p.input).filter fun t =>
        isPref p.prefixes.positive t) = [] :=
      List.filter_eq_nil_iff.mpr fun a ha => by simp [(h a ha).1]
    rw [hf]; rfl
  have hneg : (p.parse).negative = [] := by
    rw [parse_negative_eq]
    have hf : ((splitComma p.input).filter fun t =>
        isPref p.prefixes.negative t) = [] :=
      List.filter_eq_nil_iff.mpr fun a ha => by simp [(h a ha).2]
    rw [hf]; rfl
  refine ⟨hpos, hneg, ?_⟩
  rw [parse_other_eq]
  exact List.filter_eq_self.mpr fun t _ => by simp [inOther, hpos, hneg]

/-- C2 witness: the amended claim applied to the empty input. -/
theorem claim_C2_witness :
    (Parser.new (str "") Prefixes.default).parse.positive = []
      ∧ (Parser.new (str "") Prefixes.default).parse.negative = []
      ∧ (Parser.new (str "") Prefixes.default).parse.other
          = splitComma (str "") :=
  claim_C2_amended (Parser.new (str "") Prefixes.default) (by decide)

/-- C3: when the positive bucket is empty, `match_products` returns the
empty list, whatever the candidates and the other buckets are: the `any`
over an empty positive list is false for every candidate. -/
theorem claim_C3_empty_positive (p : Parser) (products : List Str)
    (kws : Keywords) (h : kws.positive = []) :
    p.matchProducts products kws = [] := by
  rw [matchProducts_eq_filter]
  exact List.filter_eq_nil_iff.mpr fun a _ => by simp [matchKeep, h]

/-- C3 witness: concrete candidates against keywords with an empty positive
bucket and non-empty negative and other buckets. -/
theorem claim_C3_witness :
    (Parser.new (str "") Prefixes.default).matchProducts
      [str "x", str "ay"] ⟨[], [str "a"], [str "b"]⟩ = [] :=
  claim_C3_empty_positive (Parser.new (str "") Prefixes.default)
    [str "x", str "ay"] ⟨[], [str "a"], [str "b"]⟩ rfl

/-- C4: the positive (resp. negative) bucket of `parse` consists of exactly
the tokens starting with that prefix where, when `retain_prefix` is true,
the emitted keyword is the raw token unchanged, and when it is false, the
emitted keyword is the raw token with every literal occurrence of the
prefix removed (`stripAll`, the model of `replace(prefix, "")`). -/
theorem claim_C4_retention (p : Parser) :
    (p.parse).positive
      = ((splitComma p.input).filter fun t =>
          isPref p.prefixes.positive t).map
          (fun t => if p.retainPfx then t
            else stripAll p.prefixes.positive t)
    ∧ (p.parse).negative
      = ((splitComma p.input).filter fun t =>
          isPref p.prefixes.negative t).map
          (fun t => if p.retainPfx then t
            else stripAll p.prefixes.negative t) := by
  have he : ∀ pfx t, emitKw p pfx t
      = if p.retainPfx then t else stripAll pfx t := by
    intro pfx t
    unfold emitKw
    cases p.retainPfx <;> simp
  constructor
  · rw [parse_positive_eq]
    congr 1
    funext t
    exact he _ t
  · rw [parse_negative_eq]
    congr 1
    funext t
    exact he _ t

/-- C5: scenario 1 — input `"+foo,-bar,+baz,-bak"` with the default
prefixes and default `retain_prefix = false` classifies to
positive `["foo","baz"]`, negative `["bar","bak"]`, other `[]`. -/
theorem claim_C5_scenario1 :
    (Parser.new (str "+foo,-bar,+baz,-bak") Prefixes.default).parse
      = ⟨[str "foo", str "baz"], [str "bar", str "bak"], []⟩ := by decide

/-- C6: whether a candidate is kept by `match_products` only depends on the
lower-casings of the candidate and of the keywords: altering letter case on
either side (formally: replacing them by strings with the same
lower-casing) does not change the verdict. -/
theorem claim_C6_case_insensitive (p : Parser) (ka kb : Keywords)
    (ca cb : Str) (hc : lower ca = lower cb)
    (hpos : ka.positive.map lower = kb.positive.map lower)
    (hneg : ka.negative.map lower = kb.negative.map lower) :
    (ca ∈ p.matchProducts [ca] ka ↔ cb ∈ p.matchProducts [cb] kb) := by
  have e1 := any_map_lower ka.positive kb.positive
    (containsSub (lower (lower cb))) hpos
  have e2 := any_map_lower ka.negative kb.negative
    (containsSub (lower cb)) hneg
  have hk : matchKeep ka ca = matchKeep kb cb := by
    simp only [matchKeep, hc]
    rw [e1, e2]
  rw [matchProducts_eq_filter, matchProducts_eq_filter]
  simp [List.mem_filter, hk]

/-- C6 witness: the same product in two casings against the same positive
keyword in two casings is kept in both runs or neither. -/
theorem claim_C6_witness :
    (str "Product" ∈ (Parser.new (str "") Prefixes.default).matchProducts
        [str "Product"] ⟨[str "PRO"], [], []⟩)
      ↔ (str "pRoDuCt" ∈ (Parser.new (str "") Prefixes.default).matchProducts
        [str "pRoDuCt"] ⟨[str "pro"], [], []⟩) :=
  claim_C6_case_insensitive (Parser.new (str "") Prefixes.default)
    ⟨[str "PRO"], [], []⟩ ⟨[str "pro"], [], []⟩
    (str "Product") (str "pRoDuCt") (by decide) (by decide) (by decide)

/-- C7: each bucket of `parse` is an order-preserving selection of the
split (`other` is a filter of the token list, hence a sublist; `positive`
and `negative` are the emitted images of filters of the token list), and
`match_products` returns a filter — hence an order-preserving sublist — of
the candidate list. -/
theorem claim_C7_order (p : Parser) (products : List Str)
    (kws : Keywords) :
    (p.parse).positive
        = ((splitComma p.input).filter fun t =>
            isPref p.prefixes.positive t).map (emitKw p p.prefixes.positive)
      ∧ (p.parse).negative
        = ((splitComma p.input).filter fun t =>
            isPref p.prefixes.negative t).map (emitKw p p.prefixes.negative)
      ∧ (p.parse).other
        = ((splitComma p.input).filter fun t => inOther p t)
      ∧ List.Sublist ((p.parse).other) (splitComma p.input)
      ∧ p.matchProducts products kws = products.filter (matchKeep kws)
      ∧ List.Sublist (p.matchProducts products kws) products := by
  refine ⟨parse_positive_eq p, parse_negative_eq p, parse_other_eq p,
    ?_, matchProducts_eq_filter p products kws, ?_⟩
  · rw [parse_other_eq]
    exact List.filter_sublist _
  · rw [matchProducts_eq_filter]
    exact List.filter_sublist _

/-- C8: totality — for any input, any prefix pair (empty or overlapping
included), any flag, any candidates and keywords, `parse` and
`match_products` produce defined results, with bucket sizes bounded by the
number of tokens and the result bounded by the number of candidates. -/
theorem claim_C8_total (input : Str) (pfxs : Prefixes) (retain : Bool)
    (products : List Str) (kws : Keywords) :
    (∃ out : Keywords, (Parser.mk input pfxs retain).parse = out)
      ∧ ((Parser.mk input pfxs retain).parse).positive.length
          ≤ (splitComma input).length
      ∧ ((Parser.mk input pfxs retain).parse).negative.length
          ≤ (splitComma input).length
      ∧ ((Parser.mk input pfxs retain).parse).other.length
          ≤ (splitComma input).length
      ∧ (∃ res : List Str,
          (Parser.mk input pfxs retain).matchProducts products kws = res)
      ∧ ((Parser.mk input pfxs retain).matchProducts products kws).length
          ≤ products.length := by
  refine ⟨⟨_, rfl⟩, ?_, ?_, ?_, ⟨_, rfl⟩, ?_⟩
  · rw [parse_positive_eq]
    simpa using List.length_filter_le _ _
  · rw [parse_negative_eq]
    simpa using List.length_filter_le _ _
  · rw [parse_other_eq]
    exact List.length_filter_le _ _
  · rw [matchProducts_eq_filter]
    exact List.length_filter_le _ _

/-- C9: `parse` is deterministic — two parsers that agree on input,
prefixes and flag (in particular, the same parser queried twice; a `&self`
receiver cannot mutate the parser) classify identically. -/
theorem claim_C9_deterministic (p q : Parser) (h1 : p.input = q.input)
    (h2 : p.prefixes = q.prefixes) (h3 : p.retainPfx = q.retainPfx) :
    p.parse = q.parse := by
  have hpq : p = q := by
    cases p
    cases q
    simp_all
  rw [hpq]

/-- C9 witness: the same configuration written two ways parses equally. -/
theorem claim_C9_witness :
    (Parser.new (str "+a,b") Prefixes.default).parse
      = (Parser.mk (str "+a,b") (Prefixes.mk (str "+") (str "-"))
          false).parse :=
  claim_C9_deterministic (Parser.new (str "+a,b") Prefixes.default)
    (Parser.mk (str "+a,b") (Prefixes.mk (str "+") (str "-")) false)
    rfl rfl rfl

/-- C10: if the empty string is an emitted positive or negative keyword,
the `other` bucket is empty, since every raw token contains the empty
string as a substring and is therefore filtered out. -/
theorem claim_C10_empty_keyword (p : Parser)
    (h : [] ∈ (p.parse).positive ∨ [] ∈ (p.parse).negative) :
    (p.parse).other = [] := by
  rw [parse_other_eq]
  refine List.filter_eq_nil_iff.mpr fun t _ => ?_
  cases h with
  | inl hp =>
    have hany : ((p.parse).positive.any fun y => containsSub t y) = true :=
      List.any_eq_true.mpr ⟨[], hp, containsSub_nil t⟩
    simp [inOther, hany]
  | inr hn =>
    have hany : ((p.parse).negative.any fun y => containsSub t y) = true :=
      List.any_eq_true.mpr ⟨[], hn, containsSub_nil t⟩
    simp [inOther, hany]

/-- C10 witness: input `"+"` with default prefixes and stripping emits the
empty positive keyword `""`, and `other` is indeed empty. -/
theorem claim_C10_witness :
    (Parser.new (str "+") Prefixes.default).parse.other = [] :=
  claim_C10_empty_keyword (Parser.new (str "+") Prefixes.default)
    (Or.inl (by decide))

/-- C1 counterexample: with the default prefixes — non-empty, distinct,
neither a substring of the other — the input `"+foo,barfoo"` has the raw
token `"barfoo"`, which starts with neither prefix yet contains the emitted
positive keyword `"foo"` as a substring, so the `other`-bucket filter drops
it: the token lands in zero buckets, refuting the exactly-one partition. -/
theorem claim_C1_counterexample :
    (Prefixes.default.positive ≠ []
        ∧ Prefixes.default.negative ≠ []
        ∧ Prefixes.default.positive ≠ Prefixes.default.negative
        ∧ containsSub Prefixes.default.positive Prefixes.default.negative
            = false
        ∧ containsSub Prefixes.default.negative Prefixes.default.positive
            = false)
      ∧ str "barfoo"
          ∈ splitComma (Parser.new (str "+foo,barfoo") Prefixes.default).input
      ∧ numBuckets (Parser.new (str "+foo,barfoo") Prefixes.default)
          (str "barfoo") = 0 := by
  decide

/-- C1 (amended): for non-overlapping, non-empty, distinct prefixes, each
raw token of the split is counted in exactly one of the three buckets,
provided additionally that every matching token still contains its emitted
keyword as a substring and that no emitted keyword is a substring of a
token matching neither prefix.  (Without the first extra condition a
matching token can also land in `other`, e.g. `"+a+b"`; without the second
an unmatched token can land in no bucket, e.g. `"barfoo"` alongside the
keyword `"foo"`.) -/
theorem claim_C1_partition (p : Parser)
    (_hp : p.prefixes.positive ≠ [])
    (_hn : p.prefixes.negative ≠ [])
    (_hd : p.prefixes.positive ≠ p.prefixes.negative)
    (hpn : containsSub p.prefixes.positive p.prefixes.negative = false)
    (hnp : containsSub p.prefixes.negative p.prefixes.positive = false)
    (hselfp : ∀ t ∈ splitComma p.input,
        isPref p.prefixes.positive t = true →
        containsSub t (emitKw p p.prefixes.positive t) = true)
    (hselfn : ∀ t ∈ splitComma p.input,
        isPref p.prefixes.negative t = true →
        containsSub t (emitKw p p.prefixes.negative t) = true)
    (hfree : ∀ t ∈ splitComma p.input,
        isPref p.prefixes.positive t = false →
        isPref p.prefixes.negative t = false →
        (∀ y ∈ (p.parse).positive, containsSub t y = false)
          ∧ (∀ y ∈ (p.parse).negative, containsSub t y = false)) :
    ∀ t ∈ splitComma p.input, numBuckets p t = 1 := by
  intro t ht
  have hboth : ¬(isPref p.prefixes.positive t = true
      ∧ isPref p.prefixes.negative t = true) := by
    rintro ⟨h1, h2⟩
    rcases Nat.le_total p.prefixes.positive.length
        p.prefixes.negative.length with hle | hle
    · have hnest := isPref_of_isPref_of_le _ _ _ h1 h2 hle
      have hcs := containsSub_of_isPref _ _ hnest
      rw [hnp] at hcs
      simp at hcs
    · have hnest := isPref_of_isPref_of_le _ _ _ h2 h1 hle
      have hcs := containsSub_of_isPref _ _ hnest
      rw [hpn] at hcs
      simp at hcs
  unfold numBuckets
  cases hpos : isPref p.prefixes.positive t with
  | true =>
    have hneg : isPref p.prefixes.negative t = false := by
      cases h2 : isPref p.prefixes.negative t with
      | false => rfl
      | true => exact absurd ⟨hpos, h2⟩ hboth
    have hoth : inOther p t = false := by
      have hany : ((p.parse).positive.any fun y => containsSub t y)
          = true :=
        List.any_eq_true.mpr
          ⟨_, emit_mem_positive p t ht hpos, hselfp t ht hpos⟩
      simp [inOther, hany]
    simp [hpos, hneg, hoth]
  | false =>
    cases hneg : isPref p.prefixes.negative t with
    | true =>
      have hoth : inOther p t = false := by
        have hany : ((p.parse).negative.any fun y => containsSub t y)
            = true :=
          List.any_eq_true.mpr
            ⟨_, emit_mem_negative p t ht hneg, hselfn t ht hneg⟩
        simp [inOther, hany]
      simp [hpos, hneg, hoth]
    | false =>
      have hf := hfree t ht hpos hneg
      have h1 : ((p.parse).positive.any fun y => containsSub t y)
          = false :=
        List.any_eq_false.mpr fun y hy => by simp [hf.1 y hy]
      have h2 : ((p.parse).negative.any fun y => containsSub t y)
          = false :=
        List.any_eq_false.mpr fun y hy => by simp [hf.2 y hy]
      have hoth : inOther p t = true := by
        simp [inOther, h1, h2]
      simp [hpos, hneg, hoth]

/-- C1 witness: on `"+foo,-bar,baz"` with default prefixes all the side
conditions hold, and the token `"baz"` is counted in exactly one bucket. -/
theorem claim_C1_witness :
    numBuckets (Parser.new (str "+foo,-bar,baz") Prefixes.default)
      (str "baz") = 1 :=
  claim_C1_partition (Parser.new (str "+foo,-bar,baz") Prefixes.default)
    (by decide) (by decide) (by decide) (by decide) (by decide)
    (by decide) (by decide) (by decide) (str "baz") (by decide)

end Kwp
